import Mathlib

/-!
Verification of the thairacoder response-to-artifact pipeline.

The TypeScript sources are shallowly embedded as Lean functions:
  - `parseCodeBlocks` and `parseFileStructure` from `src/components/PreviewPane.tsx`,
    including the exact backtracking behaviour of the JavaScript regexes they use;
  - `getAllFiles` from `src/components/PreviewPane.tsx`;
  - `requireModule`, `registerModules`'s import rewriting and `resolvePath`
    from `src/lib/virtual-view.ts`;
  - the version-snapshot shallow array copy from `PreviewPane.tsx` is modelled
    with an explicit address heap, since it is about object identity.
The merge engine (`lib/code-structure-merge`) and block transformer
(`lib/code-structure-block`) are not present in the sources; they are modelled
from the specification text and marked as such in their doc comments.
-/

namespace TC

/-- The characters of the JavaScript whitespace class used by the regexes in the
sources (the common members; exotic unicode space separators that never occur in
the inputs considered here are omitted). -/
def isJsWs (c : Char) : Bool :=
  c = ' ' || c = '\t' || c = '\n' || c = '\r' || c = '\x0b' || c = '\x0c' ||
  c = ' ' || c = '﻿'

/-- JavaScript word character class: ASCII letters, digits and underscore. -/
def isWordChar (c : Char) : Bool := c.isAlphanum || c = '_'

/-- The backtick character, by code point. -/
def backtickChar : Char := Char.ofNat 96

/-- Drop the trailing run of characters satisfying `p`. -/
def dropTrail (p : Char → Bool) (l : List Char) : List Char :=
  (l.reverse.dropWhile p).reverse

/-- JavaScript `String.prototype.trim` on a character list. -/
def jsTrimList (l : List Char) : List Char :=
  dropTrail isJsWs (l.dropWhile isJsWs)

/-- JavaScript `String.prototype.trim`. -/
def jsTrimStr (s : String) : String := String.mk (jsTrimList s.data)

/-- Split a character list at every occurrence of a separator character,
mirroring JavaScript `split` with a single-character separator. -/
def splitOnChar (sep : Char) : List Char → List (List Char)
  | [] => [[]]
  | c :: rest =>
    if c = sep then [] :: splitOnChar sep rest
    else
      match splitOnChar sep rest with
      | ln :: rest' => (c :: ln) :: rest'
      | [] => [[c]]

/-- A flat extracted block: the record type produced by `parseCodeBlocks`
(`CodeBlock` in `lib/types`): language, optional filename, content. -/
structure CodeBlock where
  language : String
  filename : Option String
  content : String
deriving DecidableEq, Repr

/-- Does the list start with three backticks? -/
def startsTicks : List Char → Bool
  | a :: b :: c :: _ => a = backtickChar && b = backtickChar && c = backtickChar
  | _ => false

/-- Find the earliest occurrence of three consecutive backticks; return the
characters before it and the characters after it.  This is the lazy
`([\s\S]*?)` followed by the closing fence in the `parseCodeBlocks` regex. -/
def findTicks : List Char → Option (List Char × List Char)
  | [] => none
  | c :: rest =>
    if startsTicks (c :: rest) then some ([], rest.drop 2)
    else
      match findTicks rest with
      | some (pre, after) => some (c :: pre, after)
      | none => none

/-- Head-of-list test for a newline character. -/
def headIsNl : List Char → Bool
  | c :: _ => c = '\n'
  | [] => false

/-- The `(?:\s+([^\n]+))?\n([\s\S]*?)` part of the fence regex with the
whitespace run length fixed to `j`: greedy `[^\n]+` (only its maximal length
can be followed by the mandatory newline), then the lazy content up to the
closing fence.  Returns (filename capture, raw content, rest after fence). -/
def fnameAt (t : List Char) (j : Nat) : Option (List Char × List Char × List Char) :=
  let r2 := t.drop j
  let n := (r2.takeWhile (fun c => c ≠ '\n')).length
  if n ≠ 0 && headIsNl (r2.drop n) then
    match findTicks (r2.drop (n + 1)) with
    | some (content, rest) => some (r2.take n, content, rest)
    | none => none
  else none

/-- Backtracking loop over the greedy `\s+` length, from `j` down to `1`,
as the JavaScript engine does after the optional filename group. -/
def tryWsLens (t : List Char) : Nat → Option (List Char × List Char × List Char)
  | 0 => none
  | j + 1 =>
    match fnameAt t (j + 1) with
    | some res => some res
    | none => tryWsLens t j

/-- The optional filename branch `(?:\s+([^\n]+))?` of the fence regex: the
greedy whitespace run is tried at every length down to one. -/
def fenceFilenameBranch (t : List Char) : Option (List Char × List Char × List Char) :=
  tryWsLens t ((t.takeWhile isJsWs).length)

/-- Matching of the fence regex body after the opening three backticks:
`(\w+)?(?:\s+([^\n]+))?\n([\s\S]*?)` then the closing backticks.  Only the
maximal word run can serve as the language capture (any shorter retry leaves a
word character where neither whitespace nor the newline can match).  Returns
(language capture, filename capture, raw content, rest after the match). -/
def matchAfterTicks (t : List Char) :
    Option (Option (List Char) × Option (List Char) × List Char × List Char) :=
  let w := (t.takeWhile isWordChar).length
  let lang := if w = 0 then none else some (t.take w)
  let t' := t.drop w
  match fenceFilenameBranch t' with
  | some (fname, content, rest) => some (lang, some fname, content, rest)
  | none =>
    if headIsNl t' then
      match findTicks (t'.drop 1) with
      | some (content, rest) => some (lang, none, content, rest)
      | none => none
    else none

/-- Build one `CodeBlock` from the captures, with the JavaScript destructuring
defaults of the source: language defaults to "text" when the group did not
match, filename and content are trimmed. -/
def mkCodeBlock (lang : Option (List Char)) (fname : Option (List Char))
    (content : List Char) : CodeBlock :=
  { language := match lang with | some l => String.mk l | none => "text"
    filename := fname.map (fun f => String.mk (jsTrimList f))
    content := String.mk (jsTrimList content) }

/-- The `exec` loop of `parseCodeBlocks`: at each position, a match is
attempted where three backticks start; on success scanning resumes after the
match, otherwise at the next character.  Fuel bounds the scan by the input
length. -/
def scanBlocks : Nat → List Char → List CodeBlock
  | 0, _ => []
  | _, [] => []
  | fuel + 1, c :: rest =>
    if startsTicks (c :: rest) then
      match matchAfterTicks ((c :: rest).drop 3) with
      | some (lang, fname, content, after) =>
        mkCodeBlock lang fname content :: scanBlocks fuel after
      | none => scanBlocks fuel rest
    else scanBlocks fuel rest

/-- `parseCodeBlocks` from `src/components/PreviewPane.tsx` (lines 98-113):
repeatedly match the fence regex against the text and collect the blocks. -/
def parseCodeBlocks (text : String) : List CodeBlock :=
  scanBlocks text.data.length text.data

/-- Is there any occurrence of three consecutive backticks in the list? -/
def hasTicks : List Char → Bool
  | [] => false
  | c :: rest => startsTicks (c :: rest) || hasTicks rest

/-! ### Structure parser (`parseFileStructure`, PreviewPane.tsx lines 26-95) -/

/-- Case-insensitive prefix match; on success return the remainder. -/
def ciRest : List Char → List Char → Option (List Char)
  | [], l => some l
  | _ :: _, [] => none
  | p :: ps, c :: cs => if c.toLower = p then ciRest ps cs else none

/-- After a `<`, match the open marker alternation `(?:thinking|think)`
case-insensitively (longer alternative first, as the regex engine tries it). -/
def openAfterLt (rest : List Char) : Option (List Char) :=
  match ciRest "thinking".data rest with
  | some after => some after
  | none => ciRest "think".data rest

/-- Scan for the earliest closing marker `</thinking>` or `</think>`
(case-insensitive); on success return the remainder after it. -/
def findClose : List Char → Option (List Char)
  | [] => none
  | c :: rest =>
    match ciRest "</thinking>".data (c :: rest) with
    | some after => some after
    | none =>
      match ciRest "</think>".data (c :: rest) with
      | some after => some after
      | none => findClose rest

/-- The global replace of `/<(?:thinking|think)[\s\S]*?<\/(?:thinking|think)>/gi`
with the empty string: delete every region from an open marker to the earliest
close marker.  Fuel bounds the scan by the input length. -/
def stripThinkingGo : Nat → List Char → List Char
  | 0, l => l
  | fuel + 1, l =>
    match l with
    | [] => []
    | c :: rest =>
      if c = '<' then
        match openAfterLt rest with
        | some afterOpen =>
          match findClose afterOpen with
          | some afterClose => stripThinkingGo fuel afterClose
          | none => c :: stripThinkingGo fuel rest
        | none => c :: stripThinkingGo fuel rest
      else c :: stripThinkingGo fuel rest

/-- JavaScript `split(/\r?\n/)`: split at every `\r\n` or lone `\n`. -/
def splitLines : List Char → List (List Char)
  | [] => [[]]
  | '\r' :: '\n' :: rest => [] :: splitLines rest
  | '\n' :: rest => [] :: splitLines rest
  | c :: rest =>
    match splitLines rest with
    | ln :: rest' => (c :: ln) :: rest'
    | [] => [[c]]

/-- The branch glyphs `├` and `└`. -/
def treeBranchChar (c : Char) : Bool := c = '├' || c = '└'

/-- The character class `[│├└\s]` of the tree-glyph prefix. -/
def isTreeClassChar (c : Char) : Bool := c = '│' || c = '├' || c = '└' || isJsWs c

/-- Does the list start with a branch glyph `├──` or `└──`? -/
def branchAt : List Char → Bool
  | a :: b :: c :: _ => treeBranchChar a && b = '─' && c = '─'
  | _ => false

/-- Greedy prefix backtracking of `([│├└\s]*)(├──|└──)`: the largest split
point `k` not exceeding the class-character run at which a branch glyph
starts. -/
def largestBranchK : Nat → List Char → Option Nat
  | 0, l => if branchAt l then some 0 else none
  | k + 1, l => if branchAt (l.drop (k + 1)) then some (k + 1) else largestBranchK k l

/-- Split `(.*?)(\s*#.*)?$`: the lazy name capture ends at the start of the
whitespace run immediately preceding the first `#` (if any), which the greedy
optional comment group then consumes to the end of the line. -/
def splitComment (l : List Char) : List Char × Option (List Char) :=
  let pre := l.takeWhile (fun c => c ≠ '#')
  if pre.length = l.length then (l, none)
  else
    let wsTail := (pre.reverse.takeWhile isJsWs).length
    let r := pre.length - wsTail
    (l.take r, some (l.drop r))

/-- The tree-glyph recognizer `^([│├└\s]*)(├──|└──)\s*(.*?)(\s*#.*)?$`:
returns (level, trimmed name, trimmed comment) on success.  The level is the
count of the vertical-continuation glyph `│` in the matched prefix. -/
def treeMatch (line : List Char) : Option (Nat × String × Option String) :=
  let P := (line.takeWhile isTreeClassChar).length
  match largestBranchK P line with
  | none => none
  | some k =>
    let level := ((line.take k).filter (fun c => c = '│')).length
    let rest1 := (line.drop (k + 3)).dropWhile isJsWs
    let (rawName, rawComment) := splitComment rest1
    some (level, String.mk (jsTrimList rawName),
      rawComment.map (fun rc => String.mk (jsTrimList rc)))

/-- Does the suffix, after skipping leading whitespace, start with `#`? -/
def wsThenHash (l : List Char) : Bool :=
  match l.dropWhile isJsWs with
  | c :: _ => c = '#'
  | [] => false

/-- Head-of-list test for a slash. -/
def headIsSlash : List Char → Bool
  | c :: _ => c = '/'
  | [] => false

/-- Membership in the language of `(\/?)(\s*#.*)?$`: what may legally follow
the lazy name capture of the dot-notation recognizer. -/
def suffixInL : List Char → Bool
  | [] => true
  | c :: t => if c = '/' then t.isEmpty || wsThenHash t else wsThenHash (c :: t)

/-- The lazy scan for the smallest name-capture length `r ≥ 1` whose remaining
suffix is accepted by `suffixInL` (the scan always terminates at the empty
suffix). -/
def dotSplitGo (rest : List Char) : Nat → Nat → Nat
  | 0, r => r
  | fuel + 1, r => if suffixInL (rest.drop r) then r else dotSplitGo rest fuel (r + 1)

/-- The dot-notation recognizer `^(\s*)([^\/\s][^#]*?)(\/?)(\s*#.*)?$`:
returns (level, trimmed name, folder flag, trimmed comment) on success.
The level is the indent length divided by two, rounding down. -/
def dotMatch (line : List Char) : Option (Nat × String × Bool × Option String) :=
  let ind := (line.takeWhile isJsWs).length
  let rest := line.drop ind
  match rest with
  | [] => none
  | c0 :: _ =>
    if c0 = '/' then none
    else
      let r := dotSplitGo rest rest.length 1
      let suffix := rest.drop r
      let slash := headIsSlash suffix
      let afterSlash := if slash then suffix.drop 1 else suffix
      some (ind / 2, String.mk (jsTrimList (rest.take r)), slash,
        if afterSlash.isEmpty then none
        else some (String.mk (jsTrimList afterSlash)))

/-- Trimmed-name test for a trailing slash, as `name.endsWith("/")`. -/
def endsWithSlash (s : String) : Bool :=
  match s.data.reverse with
  | c :: _ => c = '/'
  | [] => false

/-- Arena cell for one `TreeNode` object created by the parser loop; children
are arena indices so that the later in-place `parent.children.push(node)`
mutations of the source are modelled exactly. -/
structure PNode where
  pname : String
  pfolder : Bool
  pexpanded : Bool
  pchildIdx : List Nat
  pcomment : Option String
deriving Repr, DecidableEq

/-- Parser loop state: the arena of created nodes, the root index list, and
the JavaScript stack array whose holes (from sparse assignment) are `none`. -/
structure PState where
  nodes : List PNode
  root : List Nat
  stack : List (Option (Nat × Nat))
deriving Repr, DecidableEq

/-- The backwards stack search for the closest parent: the last stack entry
whose recorded level is `level - 1` (stack entries are always folders, whose
`children` array is truthy). -/
def findParent (stack : List (Option (Nat × Nat))) (level : Nat) : Option Nat :=
  match stack.reverse.find? (fun e =>
      match e with
      | some (_, l) => l = level - 1
      | none => false) with
  | some (some (p, _)) => some p
  | _ => none

/-- `parent.children.push(node)` in the arena: append a child index to the
cell at index `p`. -/
def appendChild (nodes : List PNode) (p idx : Nat) : List PNode :=
  match nodes.get? p with
  | some nd => nodes.set p { nd with pchildIdx := nd.pchildIdx ++ [idx] }
  | none => nodes

/-- Pad a JavaScript array with holes up to length `n` (sparse assignment). -/
def padToNone (l : List (Option (Nat × Nat))) (n : Nat) : List (Option (Nat × Nat)) :=
  l ++ List.replicate (n - l.length) none

/-- Process one recognized node: create it, attach it to the root list (level
zero) or to the closest parent found on the stack (silently dropped when no
parent matches), then — for folders only — `stack.splice(level)` and assign
`stack[level]`. -/
def addNode (st : PState) (level : Nat) (name : String) (isFolder : Bool)
    (comment : Option String) : PState :=
  if name = "" then st
  else
    let idx := st.nodes.length
    let node : PNode :=
      { pname := name, pfolder := isFolder, pexpanded := decide (level < 2),
        pchildIdx := [], pcomment := comment }
    let nodes1 := st.nodes ++ [node]
    let attached :=
      if level = 0 then (nodes1, st.root ++ [idx])
      else
        match findParent st.stack level with
        | some p => (appendChild nodes1 p idx, st.root)
        | none => (nodes1, st.root)
    let stack2 :=
      if isFolder then padToNone (st.stack.take level) level ++ [some (idx, level)]
      else st.stack
    { nodes := attached.1, root := attached.2, stack := stack2 }

/-- Process one line: skip blank lines, try the tree-glyph recognizer first,
then the dot-notation recognizer, else skip. -/
def processLine (st : PState) (line : List Char) : PState :=
  if (jsTrimList line).isEmpty then st
  else
    match treeMatch line with
    | some (level, name, comment) => addNode st level name (endsWithSlash name) comment
    | none =>
      match dotMatch line with
      | some (level, name, slash, comment) => addNode st level name slash comment
      | none => st

/-- The `TreeNode` record of `lib/types`: name, "file" or "folder", expansion
hint, optional children (only folders have them), optional comment. -/
inductive TreeNode where
  | mk (name : String) (type : String) (expanded : Bool)
       (children : Option (List TreeNode)) (comment : Option String)

/-- Materialize the arena cell at `idx` into a `TreeNode` tree (child indices
always point to later cells, so the arena size bounds the depth). -/
def buildNode (nodes : List PNode) : Nat → Nat → TreeNode
  | 0, _ => .mk "" "file" false none none
  | fuel + 1, idx =>
    match nodes.get? idx with
    | none => .mk "" "file" false none none
    | some nd =>
      .mk nd.pname (if nd.pfolder then "folder" else "file") nd.pexpanded
        (if nd.pfolder then some (nd.pchildIdx.map (buildNode nodes fuel)) else none)
        nd.pcomment

/-- `parseFileStructure` from `src/components/PreviewPane.tsx` (lines 26-95):
strip thinking-tagged regions, split into lines, run the recognizer loop, and
return the root nodes. -/
def parseFileStructure (text : String) : List TreeNode :=
  let stripped := stripThinkingGo text.data.length text.data
  let st := (splitLines stripped).foldl processLine { nodes := [], root := [], stack := [] }
  st.root.map (buildNode st.nodes (st.nodes.length + 1))

/-! ### CodeStructBlock trees, flatten, transform and merge -/

/-- The `CodeStructBlock` record of `lib/types`: "file" or "folder", optional
filename (file leaves carry the full path-qualified filename, folders their
segment name), optional language and content, optional children list. -/
inductive CodeStructBlock where
  | mk (type : String) (filename : Option String) (language : Option String)
       (content : Option String) (children : Option (List CodeStructBlock))

def CodeStructBlock.btype : CodeStructBlock → String
  | .mk t _ _ _ _ => t

def CodeStructBlock.bfilename : CodeStructBlock → Option String
  | .mk _ f _ _ _ => f

def CodeStructBlock.blanguage : CodeStructBlock → Option String
  | .mk _ _ l _ _ => l

def CodeStructBlock.bcontent : CodeStructBlock → Option String
  | .mk _ _ _ c _ => c

def CodeStructBlock.bchildren : CodeStructBlock → Option (List CodeStructBlock)
  | .mk _ _ _ _ ch => ch

mutual

/-- `getAllFiles` from `src/components/PreviewPane.tsx` (lines 827-840): the
pre-order traversal pushing every file node with a truthy filename and
recursing into every folder node with a (truthy) children array. -/
def getAllFiles : List CodeStructBlock → List CodeStructBlock
  | [] => []
  | b :: rest => filesOfNode b ++ getAllFiles rest

/-- The per-node step of the `getAllFiles` traversal: a file node with a
truthy (present, nonempty) filename is pushed; a folder node with a children
array is recursed into; anything else contributes nothing. -/
def filesOfNode : CodeStructBlock → List CodeStructBlock
  | .mk "file" (some f) lg c ch =>
    if f = "" then [] else [.mk "file" (some f) lg c ch]
  | .mk "folder" _ _ _ (some cs) => getAllFiles cs
  | _ => []

end

/-- Modelled from the spec: the extension-to-language refinement of the block
transformer (`lib/code-structure-block` is not among the sources); the mapping
contents are representative, the claims do not depend on them. -/
def extLang : List (String × String) :=
  [("tsx", "tsx"), ("ts", "ts"), ("jsx", "jsx"), ("js", "js"), ("css", "css"),
   ("html", "html"), ("json", "json"), ("md", "markdown"), ("py", "python")]

/-- Modelled from the spec: refine the fence language from the filename's
extension; the extension mapping takes precedence when it knows the
extension. -/
def refineLanguage (filename lang : String) : String :=
  match splitOnChar '.' filename.data with
  | [] => lang
  | [_] => lang
  | parts =>
    match extLang.find? (fun p => p.1 = String.mk (parts.getLastD [])) with
    | some p => p.2
    | none => lang

/-- Modelled from the spec: the leaf node the transformer attaches for a flat
block — a file node carrying the block's full filename, refined language and
content. -/
def leafFor (b : CodeBlock) (fname : String) : CodeStructBlock :=
  .mk "file" (some fname) (some (refineLanguage fname b.language)) (some b.content) none

/-- Is this node a folder with the given segment name? -/
def folderNamed (s : String) (n : CodeStructBlock) : Bool :=
  n.btype = "folder" && n.bfilename = some s

/-- Replace a node's children list (keeping its other fields). -/
def setChildren : CodeStructBlock → List CodeStructBlock → CodeStructBlock
  | .mk t f l c _, cs => .mk t f l c (some cs)

mutual

/-- Modelled from the spec: walk/create intermediate folder nodes by segment
name, reusing an existing folder node with the same name at the same tree
level if present, and attach the leaf for the final segment
(`lib/code-structure-block` is not among the sources). -/
def insertPath (nodes : List CodeStructBlock) (segs : List String)
    (leaf : CodeStructBlock) : List CodeStructBlock :=
  match segs with
  | [] => nodes
  | [_] => nodes ++ [leaf]
  | s :: rest =>
    if nodes.any (folderNamed s) then replaceFirstFolder nodes s rest leaf
    else nodes ++ [.mk "folder" (some s) none none (some (insertPath [] rest leaf))]
termination_by (segs.length, nodes.length + 1)

/-- Modelled from the spec: descend into the first folder with the matching
segment name, leaving the other siblings unchanged. -/
def replaceFirstFolder (nodes : List CodeStructBlock) (s : String)
    (rest : List String) (leaf : CodeStructBlock) : List CodeStructBlock :=
  match nodes with
  | [] => []
  | n :: ns =>
    if folderNamed s n then
      setChildren n (insertPath (n.bchildren.getD []) rest leaf) :: ns
    else n :: replaceFirstFolder ns s rest leaf
termination_by (rest.length + 1, nodes.length)

end

/-- Modelled from the spec: the transformer loop over the flat block list; a
block with no filename is assigned a synthesized name (modelled as
`block-<index>`), then inserted along its path segments. -/
def transformGo : Nat → List CodeStructBlock → List CodeBlock → List CodeStructBlock
  | _, tree, [] => tree
  | i, tree, b :: bs =>
    let fname :=
      match b.filename with
      | some f => f
      | none => "block-" ++ toString (i + 1)
    transformGo (i + 1) (insertPath tree (splitOnChar '/' fname.data |>.map String.mk) (leafFor b fname)) bs

/-- Modelled from the spec: `transformCodeBlocks` of `lib/code-structure-block`
(not among the sources) — convert flat extracted blocks into a hierarchical
`CodeStructBlock` tree matching file paths. -/
def transformCodeBlocks (blocks : List CodeBlock) : List CodeStructBlock :=
  transformGo 0 [] blocks

/-- Modelled from the spec: two nodes match during the merge when they have
the same kind and the same name (folders match folders by name, leaves match
leaves by filename). -/
def sameNode (a b : CodeStructBlock) : Bool :=
  a.btype = b.btype && a.bfilename = b.bfilename

theorem sizeOf_bchildren_getD_lt (a : CodeStructBlock) :
    sizeOf (a.bchildren.getD []) < sizeOf a := by
  cases a with
  | mk t f l c ch => cases ch <;> (simp [CodeStructBlock.bchildren]; try omega)

mutual

/-- Modelled from the spec: `mergeCodeStructBlocks` of
`lib/code-structure-merge` (not among the sources) — fold the incoming tree
into the accumulated tree: matched leaves are replaced by the incoming
version, matched folders are merged recursively, unmatched accumulated nodes
are preserved, and incoming nodes with no accumulated match are appended. -/
def mergeCodeStructBlocks (acc inc : List CodeStructBlock) : List CodeStructBlock :=
  mergeKeep acc inc ++ inc.filter (fun b => acc.all (fun a => !(sameNode a b)))
termination_by (sizeOf acc, 2)

/-- Modelled from the spec: the per-node pass over the accumulated list. -/
def mergeKeep (acc inc : List CodeStructBlock) : List CodeStructBlock :=
  match acc with
  | [] => []
  | a :: rest => mergeOne a inc :: mergeKeep rest inc
termination_by (sizeOf acc, 1)

/-- Modelled from the spec: merge one accumulated node against the incoming
list — keep it when unmatched, recurse on children when it is a folder,
replace it by the incoming version when it is a leaf. -/
def mergeOne (a : CodeStructBlock) (inc : List CodeStructBlock) : CodeStructBlock :=
  match inc.find? (fun b => sameNode a b) with
  | none => a
  | some b =>
    if a.btype = "folder" then
      setChildren a (mergeCodeStructBlocks (a.bchildren.getD []) (b.bchildren.getD []))
    else b
termination_by (sizeOf a, 0)
decreasing_by
  exact Prod.Lex.left _ _ (sizeOf_bchildren_getD_lt a)

end

/-- Option alternative with the first operand winning. -/
def optOr (a b : Option α) : Option α :=
  match a with
  | some v => some v
  | none => b

/-- Path lookup into a `CodeStructBlock` forest: follow folder names along the
non-final path components (first match wins, as in the recursive search of the
sources) and return the (language, content) of the first file node with the
final name. -/
def lookupPath : List CodeStructBlock → String → List String → Option (Option String × Option String)
  | nodes, n, [] =>
    (nodes.find? (fun b => b.btype = "file" && b.bfilename = some n)).map
      (fun b => (b.blanguage, b.bcontent))
  | nodes, n, m :: rest =>
    match nodes.find? (fun b => b.btype = "folder" && b.bfilename = some n) with
    | some b => lookupPath (b.bchildren.getD []) m rest
    | none => none

/-! ### Module loader (`src/lib/virtual-view.ts`) -/

/-- A JavaScript runtime value, as far as the loader's control flow can
observe it (numbers as integers; floating point plays no role here). -/
inductive JSValue where
  | undefined
  | jnull
  | jbool (b : Bool)
  | jnum (n : Int)
  | jstr (s : String)
  | jobj (fields : List (String × JSValue))

/-- JavaScript truthiness of a value. -/
def truthy : JSValue → Bool
  | .undefined => false
  | .jnull => false
  | .jbool b => b
  | .jnum n => n != 0
  | .jstr s => s ≠ ""
  | .jobj _ => true

/-- Property access; a missing field (and access on a non-object) reads as
`undefined`. -/
def getField : JSValue → String → JSValue
  | .jobj fields, k =>
    (match fields.find? (fun p => p.1 = k) with
     | some p => p.2
     | none => .undefined)
  | _, _ => .undefined

/-- A compiled unit stored in the module registry: it receives the exports
receptacle it must fill (always a fresh empty object in `requireModule`) and
may carry an effect on an ambient state `σ` (so that re-execution is
observable).  Its result is the final exports value and the new state. -/
def ModUnit (σ : Type) := JSValue → σ → JSValue × σ

/-- The fresh empty exports object `requireModule` allocates per call. -/
def emptyExports : JSValue := .jobj []

/-- `exports.default || exports` of the source: the default export if it is
truthy, else the whole exports object. -/
def pickExport (e : JSValue) : JSValue :=
  if truthy (getField e "default") then getField e "default" else e

/-- `requireModule` from `src/lib/virtual-view.ts` (lines 45-51): throw
"Module <filename> not found" when the registry has no entry, otherwise run
the stored unit on a fresh empty exports object and return
`exports.default || exports`.  The thrown error is an `Except.error`. -/
def requireModule {σ : Type} (registry : String → Option (ModUnit σ))
    (f : String) (s : σ) : Except String JSValue × σ :=
  match registry f with
  | none => (.error ("Module " ++ f ++ " not found"), s)
  | some u =>
    let r := u emptyExports s
    (.ok (pickExport r.1), r.2)

/-- A statement of a virtual module's source, at the granularity the import
rewrite of `registerModules` works: an import statement carries its imports
clause text and its module specifier text; the rewritten form
`const X = requireModule('<resolved>').default;` is kept structurally. -/
inductive Stmt where
  | importStmt (clause : String) (spec : String)
  | constRequire (name : String) (resolved : String)
  | other (text : String)
deriving DecidableEq, Repr

/-- The opening-brace character, by code point. -/
def lbraceChar : Char := Char.ofNat 123

/-- The closing-brace character, by code point. -/
def rbraceChar : Char := Char.ofNat 125

/-- The single-quote character, by code point. -/
def squoteChar : Char := Char.ofNat 39

/-- The double-quote character, by code point. -/
def dquoteChar : Char := Char.ofNat 34

/-- Does the import-rewrite regex
`import\s+([\w{},\s]+)\s+from\s+['"](.+)['"];?` match this statement?  The
clause must be nonempty over the class of word characters, braces, commas and
whitespace; the specifier must be nonempty without newlines or quotes (a
quote or newline inside it would break the statement's single-quoted form).
The pattern puts no constraint whatsoever on the specifier's shape — a bare
specifier such as `react` matches just like a relative `./x`. -/
def importMatches (clause spec : String) : Bool :=
  clause ≠ "" &&
  clause.data.all (fun c => isWordChar c || c = lbraceChar || c = rbraceChar ||
    c = ',' || isJsWs c) &&
  spec ≠ "" &&
  spec.data.all (fun c => !(c = '\n' || c = squoteChar || c = dquoteChar))

/-- Join character lists with a separator character (JavaScript `join`). -/
def joinChar (sep : Char) : List (List Char) → List Char
  | [] => []
  | [x] => x
  | x :: xs => x ++ sep :: joinChar sep xs

/-- `resolvePath` from `src/lib/virtual-view.ts` (lines 54-63): drop the
importing module's own filename, then fold the relative path's segments —
`.` is skipped, `..` pops the last collected segment, anything else is
appended — and join with slashes. -/
def resolvePath (from0 rel : String) : String :=
  let parts := (splitOnChar '/' from0.data).dropLast
  let res := (splitOnChar '/' rel.data).foldl
    (fun ps part =>
      if part = ['.'] then ps
      else if part = ['.', '.'] then ps.dropLast
      else ps ++ [part]) parts
  String.mk (joinChar '/' res)

/-- Following the spec's words, for the refinement comparison: resolve the
relative path against the importing module's own directory, handling `.` and
`..` segments exactly as a filesystem path resolver would, segment by
segment. -/
def specResolveSegs : List (List Char) → List (List Char) → List (List Char)
  | ps, [] => ps
  | ps, seg :: rest =>
    if seg = ['.'] then specResolveSegs ps rest
    else if seg = ['.', '.'] then specResolveSegs ps.dropLast rest
    else specResolveSegs (ps ++ [seg]) rest

/-- Following the spec's words, for the refinement comparison: the whole
spec-side resolver. -/
def specResolve (from0 rel : String) : String :=
  String.mk (joinChar '/'
    (specResolveSegs ((splitOnChar '/' from0.data).dropLast) (splitOnChar '/' rel.data)))

/-- The replacement callback of `registerModules` (lines 18-25): take the
first comma-separated piece of the imports clause, trim it, and emit
`const X = requireModule('<resolvePath(filename, spec)>').default;`. -/
def rewriteStmt (filename : String) : Stmt → Stmt
  | .importStmt clause spec =>
    if importMatches clause spec then
      .constRequire (jsTrimStr (String.mk ((splitOnChar ',' clause.data).headD [])))
        (resolvePath filename spec)
    else .importStmt clause spec
  | s => s

/-- The rewrite pass of `registerModules` over one module's statements. -/
def rewriteImports (filename : String) (stmts : List Stmt) : List Stmt :=
  stmts.map (rewriteStmt filename)

/-- Is the specifier of the relative form `./...`? -/
def isRelativeSpec (s : String) : Bool :=
  match s.data with
  | c1 :: c2 :: _ => c1 = '.' && c2 = '/'
  | _ => false

/-! ### Version snapshots and object identity (PreviewPane.tsx lines 166-177) -/

/-- A heap cell for one `CodeStructBlock` object; children are heap
addresses, so object identity and in-place mutation are expressible. -/
structure HeapCell where
  hname : Option String
  hcontent : Option String
  hchildren : List Nat
deriving DecidableEq, Repr

/-- The JavaScript array spread `[...xs]` used at the version snapshot
(`codeBlocks: [...accumulatedCodeBlocks]`): a new array whose elements are
the same object references. -/
def spreadCopy (refs : List Nat) : List Nat := refs

/-- An in-place child append to the cell at `addr` — the mutation a
non-copying merge performs on a folder node it shares with a snapshot. -/
def appendChildAt (heap : List HeapCell) (addr child : Nat) : List HeapCell :=
  match heap.get? addr with
  | some c => heap.set addr { c with hchildren := c.hchildren ++ [child] }
  | none => heap

/-- The tree a snapshot renders: dereference an address recursively. -/
inductive ViewNode where
  | node (name : Option String) (content : Option String) (children : List ViewNode)

/-- Dereference the cell at `addr` into the tree the UI displays. -/
def viewOf (heap : List HeapCell) : Nat → Nat → ViewNode
  | 0, _ => .node none none []
  | fuel + 1, addr =>
    match heap.get? addr with
    | none => .node none none []
    | some c => .node c.hname c.hcontent (c.hchildren.map (viewOf heap fuel))

/-- The number of children the rendered root shows. -/
def viewChildCount : ViewNode → Nat
  | .node _ _ cs => cs.length

/-! ## Theorems -/

theorem scanBlocks_nil_of_no_ticks :
    ∀ (fuel : Nat) (l : List Char), hasTicks l = false → scanBlocks fuel l = [] := by
  intro fuel
  induction fuel with
  | zero => intro l _; cases l <;> rfl
  | succ n ih =>
    intro l h
    cases l with
    | nil => rfl
    | cons c rest =>
      rw [hasTicks] at h
      simp only [Bool.or_eq_false_iff] at h
      rw [scanBlocks, h.1]
      simp only [Bool.false_eq_true, if_false]
      exact ih rest h.2

theorem mergeKeep_eq_map (acc inc : List CodeStructBlock) :
    mergeKeep acc inc = acc.map (fun a => mergeOne a inc) := by
  induction acc with
  | nil => rw [mergeKeep.eq_def]; rfl
  | cons a rest ih => rw [mergeKeep.eq_def]; simp [ih]

theorem setChildren_btype (a : CodeStructBlock) (cs : List CodeStructBlock) :
    (setChildren a cs).btype = a.btype := by
  cases a; rfl

theorem setChildren_bfilename (a : CodeStructBlock) (cs : List CodeStructBlock) :
    (setChildren a cs).bfilename = a.bfilename := by
  cases a; rfl

theorem setChildren_bchildren (a : CodeStructBlock) (cs : List CodeStructBlock) :
    (setChildren a cs).bchildren = some cs := by
  cases a; rfl

theorem sameNode_true_iff (a b : CodeStructBlock) :
    sameNode a b = true ↔ (a.btype = b.btype ∧ a.bfilename = b.bfilename) := by
  simp [sameNode]

theorem mergeOne_btype (a : CodeStructBlock) (inc : List CodeStructBlock) :
    (mergeOne a inc).btype = a.btype := by
  rw [mergeOne.eq_def]
  cases h : inc.find? (fun b => sameNode a b) with
  | none => rfl
  | some b =>
    have hb := List.find?_some h
    rw [sameNode_true_iff] at hb
    by_cases hf : a.btype = "folder"
    · simp [hf, setChildren_btype]
    · simp [hf, hb.1.symm]

theorem mergeOne_bfilename (a : CodeStructBlock) (inc : List CodeStructBlock) :
    (mergeOne a inc).bfilename = a.bfilename := by
  rw [mergeOne.eq_def]
  cases h : inc.find? (fun b => sameNode a b) with
  | none => rfl
  | some b =>
    have hb := List.find?_some h
    rw [sameNode_true_iff] at hb
    by_cases hf : a.btype = "folder"
    · simp [hf, setChildren_bfilename]
    · simp [hf, hb.2.symm]

theorem find?_map_of_pred (f : α → α) (p : α → Bool) (h : ∀ x, p (f x) = p x) :
    ∀ l : List α, (l.map f).find? p = (l.find? p).map f := by
  intro l
  induction l with
  | nil => rfl
  | cons a t ih =>
    simp only [List.map_cons, List.find?_cons]
    rw [h a]
    cases p a <;> simp [ih]

theorem find?_filter_of_imp (p q : α → Bool) (h : ∀ b, p b = true → q b = true) :
    ∀ l : List α, (l.filter q).find? p = l.find? p := by
  intro l
  induction l with
  | nil => rfl
  | cons a t ih =>
    by_cases hq : q a = true
    · simp [List.filter_cons, hq, List.find?_cons, ih]
    · have hp : p a = false := by
        cases hpa : p a
        · rfl
        · exact absurd (h a hpa) hq
      simp [List.filter_cons, hq, List.find?_cons, hp, ih]

theorem optOr_none_right (a : Option α) : optOr a none = a := by
  cases a <;> rfl

theorem find?_merge (ty n : String) (acc inc : List CodeStructBlock) :
    (mergeCodeStructBlocks acc inc).find? (fun b => b.btype = ty && b.bfilename = some n) =
      ((acc.find? (fun b => b.btype = ty && b.bfilename = some n)).map
          (fun a => mergeOne a inc)).or
        (inc.find? (fun b => b.btype = ty && b.bfilename = some n)) := by
  have hpres : ∀ a : CodeStructBlock,
      ((mergeOne a inc).btype = ty && (mergeOne a inc).bfilename = some n) =
        (a.btype = ty && a.bfilename = some n) := by
    intro a
    rw [mergeOne_btype, mergeOne_bfilename]
  rw [mergeCodeStructBlocks.eq_def, List.find?_append, mergeKeep_eq_map,
    find?_map_of_pred _ _ hpres]
  cases hacc : acc.find? (fun b => b.btype = ty && b.bfilename = some n) with
  | some a => rfl
  | none =>
    simp only [Option.map_none', Option.none_or]
    apply find?_filter_of_imp
    intro b hb
    simp only [Bool.and_eq_true, decide_eq_true_eq] at hb
    rw [List.all_eq_true]
    intro a ha
    have hna : ¬ ((a.btype = ty && a.bfilename = some n) = true) :=
      List.find?_eq_none.mp hacc a ha
    cases hs : sameNode a b with
    | false => rfl
    | true =>
      rw [sameNode_true_iff] at hs
      exact absurd (by simp [hs.1, hs.2, hb.1, hb.2]) hna

theorem sameNode_pred_eq (a : CodeStructBlock) (ty n : String)
    (h1 : a.btype = ty) (h2 : a.bfilename = some n) :
    (fun b => sameNode a b) = (fun b : CodeStructBlock => b.btype = ty && b.bfilename = some n) := by
  funext b
  simp [sameNode, h1, h2, eq_comm]

theorem lookupPath_merge (p : List String) :
    ∀ (n : String) (acc inc : List CodeStructBlock),
      lookupPath (mergeCodeStructBlocks acc inc) n p =
        optOr (lookupPath inc n p) (lookupPath acc n p) := by
  induction p with
  | nil =>
    intro n acc inc
    show ((mergeCodeStructBlocks acc inc).find? _).map _ = _
    rw [find?_merge]
    cases hacc : acc.find? (fun b => b.btype = "file" && b.bfilename = some n) with
    | some a =>
      have ha := List.find?_some hacc
      simp only [Bool.and_eq_true, decide_eq_true_eq] at ha
      simp only [Option.map_some', Option.or]
      rw [mergeOne.eq_def, sameNode_pred_eq a "file" n ha.1 ha.2]
      cases hinc : inc.find? (fun b => b.btype = "file" && b.bfilename = some n) with
      | some b => simp [lookupPath, hinc, hacc, optOr, ha.1]
      | none => simp [lookupPath, hinc, hacc, optOr]
    | none =>
      simp only [Option.map_none', Option.none_or]
      simp [lookupPath, hacc, optOr_none_right]
  | cons m rest ih =>
    intro n acc inc
    show (match (mergeCodeStructBlocks acc inc).find? _ with
          | some b => lookupPath (b.bchildren.getD []) m rest
          | none => none) = _
    rw [find?_merge]
    cases hacc : acc.find? (fun b => b.btype = "folder" && b.bfilename = some n) with
    | some a =>
      have ha := List.find?_some hacc
      simp only [Bool.and_eq_true, decide_eq_true_eq] at ha
      simp only [Option.map_some', Option.or]
      rw [mergeOne.eq_def, sameNode_pred_eq a "folder" n ha.1 ha.2]
      cases hinc : inc.find? (fun b => b.btype = "folder" && b.bfilename = some n) with
      | some b =>
        simp only [ha.1, if_true]
        show lookupPath ((setChildren a _).bchildren.getD []) m rest = _
        rw [setChildren_bchildren]
        show lookupPath (mergeCodeStructBlocks _ _) m rest = _
        rw [ih]
        simp [lookupPath, hinc, hacc]
      | none =>
        show lookupPath (a.bchildren.getD []) m rest = _
        simp [lookupPath, hinc, hacc, optOr]
    | none =>
      simp only [Option.map_none', Option.none_or]
      show (match inc.find? _ with
            | some b => lookupPath (b.bchildren.getD []) m rest
            | none => none) = _
      simp [lookupPath, hacc, optOr_none_right]

/-- C3: merging any accumulated tree with the empty incoming list returns a
tree structurally equal to it: there are no incoming matches, so every
accumulated node is kept unchanged, and nothing is appended. -/
theorem c3_merge_empty_incoming (T : List CodeStructBlock) :
    mergeCodeStructBlocks T [] = T := by
  have h : ∀ l : List CodeStructBlock, mergeKeep l [] = l := by
    intro l
    induction l with
    | nil => rw [mergeKeep.eq_def]
    | cons a rest ih =>
      rw [mergeKeep.eq_def]
      simp only [List.cons.injEq]
      exact ⟨by rw [mergeOne.eq_def]; rfl, ih⟩
  rw [mergeCodeStructBlocks.eq_def]
  simp [h]

/-- C2: for every accumulated tree whose leaves are exactly the file A (at
path `pA`, with language/content value `vA`) and the file B (at path `pB`,
value `vB`), and every incoming tree whose only leaf is B' (at B's path, value
`vB'`), the merge yields a tree whose leaves are exactly A unchanged and B'
in place of B (incoming language and content win), with no other leaf.  Trees
and leaf sets are observed through `lookupPath` (path-indexed leaf lookup). -/
theorem c2_merge_preserves_untouched
    (acc inc : List CodeStructBlock) (pA pB : String × List String)
    (vA vB vB' : Option String × Option String) (hne : pA ≠ pB)
    (hacc : ∀ n p, lookupPath acc n p =
        if (n, p) = pA then some vA else if (n, p) = pB then some vB else none)
    (hinc : ∀ n p, lookupPath inc n p = if (n, p) = pB then some vB' else none) :
    ∀ n p, lookupPath (mergeCodeStructBlocks acc inc) n p =
        if (n, p) = pA then some vA else if (n, p) = pB then some vB' else none := by
  intro n p
  rw [lookupPath_merge, hacc, hinc]
  by_cases h1 : (n, p) = pB
  · have h2 : (n, p) ≠ pA := by rw [h1]; exact fun hh => hne hh.symm
    simp [h1, h2, optOr, Ne.symm hne]
  · by_cases h2 : (n, p) = pA
    · simp [h1, h2, optOr, hne]
    · simp [h1, h2, optOr]

/-- C2 witness: the theorem applied to the concrete accumulated tree
`{A.ts, B.ts}` and incoming tree `{B.ts modified}`. -/
theorem c2_merge_preserves_untouched_witness :
    lookupPath (mergeCodeStructBlocks
        [CodeStructBlock.mk "file" (some "A.ts") (some "ts") (some "alpha") none,
         CodeStructBlock.mk "file" (some "B.ts") (some "ts") (some "old") none]
        [CodeStructBlock.mk "file" (some "B.ts") (some "tsx") (some "new") none])
      "A.ts" [] = some (some "ts", some "alpha") ∧
    lookupPath (mergeCodeStructBlocks
        [CodeStructBlock.mk "file" (some "A.ts") (some "ts") (some "alpha") none,
         CodeStructBlock.mk "file" (some "B.ts") (some "ts") (some "old") none]
        [CodeStructBlock.mk "file" (some "B.ts") (some "tsx") (some "new") none])
      "B.ts" [] = some (some "tsx", some "new") := by
  have hacc : ∀ n p, lookupPath
      [CodeStructBlock.mk "file" (some "A.ts") (some "ts") (some "alpha") none,
       CodeStructBlock.mk "file" (some "B.ts") (some "ts") (some "old") none] n p =
      if (n, p) = ("A.ts", []) then some ((some "ts", some "alpha") :
          Option String × Option String)
      else if (n, p) = ("B.ts", []) then some (some "ts", some "old") else none := by
    intro n p
    cases p with
    | cons m r =>
      simp [lookupPath, List.find?, CodeStructBlock.btype, CodeStructBlock.bfilename]
    | nil =>
      by_cases hA : "A.ts" = n
      · cases hA; decide
      · by_cases hB : "B.ts" = n
        · cases hB; decide
        · simp [lookupPath, List.find?, CodeStructBlock.btype, CodeStructBlock.bfilename,
            hA, hB, Ne.symm hA, Ne.symm hB]
  have hinc : ∀ n p, lookupPath
      [CodeStructBlock.mk "file" (some "B.ts") (some "tsx") (some "new") none] n p =
      if (n, p) = ("B.ts", []) then some ((some "tsx", some "new") :
          Option String × Option String)
      else none := by
    intro n p
    cases p with
    | cons m r =>
      simp [lookupPath, List.find?, CodeStructBlock.btype, CodeStructBlock.bfilename]
    | nil =>
      by_cases hB : "B.ts" = n
      · cases hB; decide
      · simp [lookupPath, List.find?, CodeStructBlock.btype, CodeStructBlock.bfilename,
          hB, Ne.symm hB]
  have h := c2_merge_preserves_untouched _ _ ("A.ts", []) ("B.ts", [])
    (some "ts", some "alpha") (some "ts", some "old") (some "tsx", some "new")
    (by decide) hacc hinc
  exact ⟨by simpa using h "A.ts" [], by simpa using h "B.ts" []⟩

theorem getAllFiles_nil : getAllFiles ([] : List CodeStructBlock) = [] := by
  rw [getAllFiles.eq_def]

theorem getAllFiles_cons (b : CodeStructBlock) (rest : List CodeStructBlock) :
    getAllFiles (b :: rest) = filesOfNode b ++ getAllFiles rest := by
  rw [getAllFiles.eq_def]

theorem getAllFiles_append (l1 l2 : List CodeStructBlock) :
    getAllFiles (l1 ++ l2) = getAllFiles l1 ++ getAllFiles l2 := by
  induction l1 with
  | nil => rw [List.nil_append, getAllFiles_nil, List.nil_append]
  | cons b t ih =>
    rw [List.cons_append, getAllFiles_cons, getAllFiles_cons, ih, List.append_assoc]

theorem filesOfNode_of_folder (n : CodeStructBlock) (h : n.btype = "folder") :
    filesOfNode n = getAllFiles (n.bchildren.getD []) := by
  cases n with
  | mk t f lg c ch =>
    have ht : t = "folder" := h
    subst ht
    cases ch <;> simp [filesOfNode, CodeStructBlock.bchildren]
    rw [getAllFiles.eq_def]

theorem filesOfNode_of_file (n : CodeStructBlock) (f : String)
    (h : n.btype = "file") (hf : n.bfilename = some f) (hne : f ≠ "") :
    filesOfNode n = [n] := by
  cases n with
  | mk t f0 lg c ch =>
    have ht : t = "file" := h
    subst ht
    have hf0 : f0 = some f := hf
    subst hf0
    simp [filesOfNode, hne]

theorem splitOnChar_ne_nil (sep : Char) (l : List Char) : splitOnChar sep l ≠ [] := by
  induction l with
  | nil => simp [splitOnChar]
  | cons c rest ih =>
    rw [splitOnChar]
    by_cases h : c = sep
    · simp [h]
    · simp only [h, if_false]
      cases hs : splitOnChar sep rest with
      | nil => exact absurd hs ih
      | cons a b => simp

theorem getAllFiles_replaceFirstFolder
    (leaf : CodeStructBlock) (s : String) (rest : List String)
    (hstep : ∀ tree, (getAllFiles (insertPath tree rest leaf)).Perm
      (getAllFiles tree ++ [leaf])) :
    ∀ nodes, nodes.any (folderNamed s) = true →
      (getAllFiles (replaceFirstFolder nodes s rest leaf)).Perm
        (getAllFiles nodes ++ [leaf]) := by
  intro nodes
  induction nodes with
  | nil => intro h; simp at h
  | cons n ns ihn =>
    intro hany
    rw [replaceFirstFolder.eq_def]
    by_cases hm : folderNamed s n = true
    · simp only [hm, if_true]
      have hfold : n.btype = "folder" := by
        have := hm
        simp only [folderNamed, Bool.and_eq_true, decide_eq_true_eq] at this
        exact this.1
      rw [getAllFiles_cons,
        filesOfNode_of_folder _ (by rw [setChildren_btype]; exact hfold),
        setChildren_bchildren]
      simp only [Option.getD_some]
      conv_rhs => rw [getAllFiles_cons, filesOfNode_of_folder n hfold]
      refine ((hstep _).append_right (getAllFiles ns)).trans ?_
      rw [List.append_assoc, List.append_assoc]
      exact List.Perm.append_left _ List.perm_append_comm
    · have hmf : folderNamed s n = false := by
        cases hv : folderNamed s n
        · rfl
        · exact absurd hv hm
      simp only [hmf, Bool.false_eq_true, if_false]
      have hany' : ns.any (folderNamed s) = true := by
        rw [List.any_cons, hmf] at hany
        simpa using hany
      rw [getAllFiles_cons, getAllFiles_cons n ns, List.append_assoc]
      exact List.Perm.append_left _ (ihn hany')

theorem getAllFiles_insertPath (leaf : CodeStructBlock) (f : String)
    (hleaf : leaf.btype = "file") (hfn : leaf.bfilename = some f) (hne : f ≠ "") :
    ∀ segs, segs ≠ [] → ∀ tree,
      (getAllFiles (insertPath tree segs leaf)).Perm (getAllFiles tree ++ [leaf]) := by
  intro segs
  induction segs with
  | nil => intro h; exact absurd rfl h
  | cons s rest ih =>
    intro _ tree
    cases rest with
    | nil =>
      rw [insertPath.eq_def]
      show (getAllFiles (tree ++ [leaf])).Perm _
      rw [getAllFiles_append, getAllFiles_cons, filesOfNode_of_file leaf f hleaf hfn hne]
      rw [show getAllFiles ([] : List CodeStructBlock) = [] from by rw [getAllFiles.eq_def]]
      simp
    | cons s2 rest2 =>
      have hrest : (s2 :: rest2) ≠ ([] : List String) := by simp
      have hstep := ih hrest
      rw [insertPath.eq_def]
      show (getAllFiles (if tree.any (folderNamed s) = true then
          replaceFirstFolder tree s (s2 :: rest2) leaf
        else tree ++ [.mk "folder" (some s) none none
          (some (insertPath [] (s2 :: rest2) leaf))])).Perm _
      by_cases hany : (tree.any (folderNamed s)) = true
      · rw [if_pos hany]
        exact getAllFiles_replaceFirstFolder leaf s (s2 :: rest2) hstep tree hany
      · rw [if_neg hany]
        rw [getAllFiles_append, getAllFiles_cons]
        simp only [filesOfNode]
        rw [getAllFiles_nil, List.append_nil]
        refine (List.Perm.append_left (getAllFiles tree) ?_)
        have h0 := hstep []
        rw [getAllFiles_nil] at h0
        simpa using h0

theorem getAllFiles_transformGo :
    ∀ (blocks : List CodeBlock) (i : Nat) (tree : List CodeStructBlock),
      (∀ b ∈ blocks, ∃ f, b.filename = some f ∧ f ≠ "") →
      (getAllFiles (transformGo i tree blocks)).Perm
        (getAllFiles tree ++ blocks.map (fun b => leafFor b (b.filename.getD ""))) := by
  intro blocks
  induction blocks with
  | nil => intro i tree _; simp [transformGo]
  | cons b bs ih =>
    intro i tree h
    obtain ⟨f, hf, hfne⟩ := h b (by simp)
    have hb : ∀ x ∈ bs, ∃ g, x.filename = some g ∧ g ≠ "" := fun x hx => h x (by simp [hx])
    simp only [transformGo, hf]
    have hsegs : ((splitOnChar '/' f.data).map String.mk) ≠ ([] : List String) := by
      intro hcon
      exact splitOnChar_ne_nil '/' f.data (List.map_eq_nil_iff.mp hcon)
    have hstep := getAllFiles_insertPath (leafFor b f) f rfl rfl hfne
      ((splitOnChar '/' f.data).map String.mk) hsegs tree
    refine (ih (i + 1) _ hb).trans ?_
    refine (hstep.append_right _).trans ?_
    rw [List.append_assoc, List.map_cons, hf]
    simp

/-- C4: transforming a flat block list (every block carrying a nonempty
filename) into the hierarchical tree and flattening it with the all-files
traversal reproduces the original filename-to-content association up to
order: the flattened leaves' (filename, content) pairs are a permutation of
the input blocks' (filename, content) pairs. -/
theorem c4_roundtrip (blocks : List CodeBlock)
    (h : ∀ b ∈ blocks, ∃ f, b.filename = some f ∧ f ≠ "") :
    ((getAllFiles (transformCodeBlocks blocks)).map
        (fun nd => (nd.bfilename, nd.bcontent))).Perm
      (blocks.map (fun b => (b.filename, some b.content))) := by
  have h1 := getAllFiles_transformGo blocks 0 [] h
  rw [transformCodeBlocks]
  have h2 := h1.map (fun nd => (nd.bfilename, nd.bcontent))
  refine h2.trans ?_
  have h0 : getAllFiles ([] : List CodeStructBlock) = [] := by simp [getAllFiles]
  rw [h0]
  simp only [List.nil_append, List.map_map]
  have heq : blocks.map ((fun nd : CodeStructBlock => (nd.bfilename, nd.bcontent)) ∘
      (fun b => leafFor b (b.filename.getD ""))) =
      blocks.map (fun b => (b.filename, some b.content)) := by
    apply List.map_congr_left
    intro b hb
    obtain ⟨f, hf, _⟩ := h b hb
    simp [leafFor, CodeStructBlock.bfilename, CodeStructBlock.bcontent, hf]
  rw [heq]

/-- C4 witness: the round-trip theorem applied to a concrete two-block list
with a nested path and a top-level path. -/
theorem c4_roundtrip_witness :
    ((getAllFiles (transformCodeBlocks
        [{ language := "tsx", filename := some "src/components/App.tsx",
           content := "export default 1" },
         { language := "ts", filename := some "util.ts",
           content := "export const u = 2" }])).map
        (fun nd => (nd.bfilename, nd.bcontent))).Perm
      [(some "src/components/App.tsx", some "export default 1"),
       (some "util.ts", some "export const u = 2")] := by
  have h := c4_roundtrip
    [{ language := "tsx", filename := some "src/components/App.tsx",
       content := "export default 1" },
     { language := "ts", filename := some "util.ts",
       content := "export const u = 2" }]
    (by
      intro b hb
      simp only [List.mem_cons, List.not_mem_nil, or_false] at hb
      rcases hb with rfl | rfl
      · exact ⟨"src/components/App.tsx", rfl, by decide⟩
      · exact ⟨"util.ts", rfl, by decide⟩)
  simpa using h

/-- C1 counterexample: on the four-line input `src/`, `├── App.tsx`,
`└── hooks/`, `    └── useX.ts`, `parseFileStructure` does not return exactly
one root node (it returns four), refuting the claim that the result is a
single root folder `src` containing the other entries: depth in the
tree-glyph recognizer is the count of the vertical glyph `│` in the prefix,
which is zero on every one of these lines. -/
theorem c1_counterexample :
    (parseFileStructure "src/\n├── App.tsx\n└── hooks/\n    └── useX.ts").length ≠ 1 := by
  decide

/-- C1 amended: on that input `parseFileStructure` returns four sibling root
nodes — the folder `src` with no children, the file `App.tsx`, the folder
named `hooks/` (the trailing slash is kept in the name by the tree-glyph
branch) with no children, and the file `useX.ts` — all at level zero and
hence expanded. -/
theorem c1_amended :
    parseFileStructure "src/\n├── App.tsx\n└── hooks/\n    └── useX.ts" =
      [.mk "src" "folder" true (some []) none,
       .mk "App.tsx" "file" true none none,
       .mk "hooks/" "folder" true (some []) none,
       .mk "useX.ts" "file" true none none] := by
  rfl

theorem foldl_step_eq_specResolveSegs :
    ∀ (segs ps : List (List Char)),
      segs.foldl (fun ps part =>
        if part = ['.'] then ps
        else if part = ['.', '.'] then ps.dropLast
        else ps ++ [part]) ps = specResolveSegs ps segs := by
  intro segs
  induction segs with
  | nil => intro ps; rfl
  | cons seg rest ih =>
    intro ps
    rw [List.foldl_cons, specResolveSegs]
    by_cases h1 : seg = ['.']
    · simp [h1, ih]
    · by_cases h2 : seg = ['.', '.'] <;> simp [h1, h2, ih]

/-- C7 amended: `requireModule` on an unregistered filename fails with the
"Module <f> not found" error rather than silently returning undefined; on a
registered filename whose unit evaluates it returns the unit's default export
when that export is truthy, and the full exports object otherwise — not only
when no default is present, but also when a default is present and falsy (the
`exports.default || exports` fallback of the source tests truthiness, not
presence). -/
theorem c7_amended {σ : Type} (registry : String → Option (ModUnit σ))
    (f : String) (s : σ) :
    (registry f = none →
      requireModule registry f s = (.error ("Module " ++ f ++ " not found"), s)) ∧
    (∀ u, registry f = some u →
      (truthy (getField (u emptyExports s).1 "default") = true →
        requireModule registry f s =
          (.ok (getField (u emptyExports s).1 "default"), (u emptyExports s).2)) ∧
      (truthy (getField (u emptyExports s).1 "default") = false →
        requireModule registry f s = (.ok (u emptyExports s).1, (u emptyExports s).2))) := by
  constructor
  · intro h; simp [requireModule, h]
  · intro u hu
    constructor <;> intro ht <;> simp [requireModule, hu, pickExport, ht]

/-- C7 witness: the amended theorem applied to a concrete registry — the
unregistered name errors, and a module with a truthy default export returns
that export. -/
theorem c7_amended_witness :
    requireModule (fun n => if n = "m" then
        some ((fun _ s => (JSValue.jobj [("default", JSValue.jnum 7)], s)) : ModUnit Unit)
      else none) "missing" () = (.error "Module missing not found", ()) ∧
    requireModule (fun n => if n = "m" then
        some ((fun _ s => (JSValue.jobj [("default", JSValue.jnum 7)], s)) : ModUnit Unit)
      else none) "m" () = (.ok (JSValue.jnum 7), ()) := by
  constructor
  · have h := (c7_amended (σ := Unit) (fun n => if n = "m" then
        some ((fun _ s => (JSValue.jobj [("default", JSValue.jnum 7)], s)) : ModUnit Unit)
      else none) "missing" ()).1 rfl
    simpa using h
  · have h := ((c7_amended (σ := Unit) (fun n => if n = "m" then
        some ((fun _ s => (JSValue.jobj [("default", JSValue.jnum 7)], s)) : ModUnit Unit)
      else none) "m" ()).2 _ rfl).1 rfl
    simpa using h

/-- C7 counterexample: a registered unit that sets the default export to the
(falsy) value `false`, which evaluates without error; the claim says the
default export is returned because one is set, but the code returns the full
exports object instead. -/
theorem c7_counterexample :
    requireModule (fun n => if n = "m" then
        some ((fun _ s => (JSValue.jobj [("default", JSValue.jbool false)], s)) : ModUnit Unit)
      else none) "m" () =
      (.ok (JSValue.jobj [("default", JSValue.jbool false)]), ()) ∧
    JSValue.jobj [("default", JSValue.jbool false)] ≠ JSValue.jbool false := by
  exact ⟨rfl, fun h => JSValue.noConfusion h⟩

/-- C8 amended: the import rewrite of `registerModules` rewrites exactly the
statements matched by its import pattern — which constrains the imports
clause and requires only a nonempty specifier, with no relative-path
requirement at all, so bare specifiers such as `react` are rewritten too —
into `const <first clause piece, trimmed> =
requireModule('<resolvePath(filename, spec)>').default;`, and `resolvePath`
resolves the specifier against the importing module's own directory segment
by segment, skipping `.` and popping on `..`, exactly as the spec-side
resolver written from the spec's words does. -/
theorem c8_amended (filename clause spec : String) :
    (importMatches clause spec = true →
      rewriteStmt filename (.importStmt clause spec) =
        .constRequire (jsTrimStr (String.mk ((splitOnChar ',' clause.data).headD [])))
          (resolvePath filename spec)) ∧
    (importMatches clause spec = false →
      rewriteStmt filename (.importStmt clause spec) = .importStmt clause spec) ∧
    resolvePath filename spec = specResolve filename spec := by
  refine ⟨fun h => by simp [rewriteStmt, h], fun h => by simp [rewriteStmt, h], ?_⟩
  rw [resolvePath, specResolve, foldl_step_eq_specResolveSegs]

/-- C8 witness: the amended theorem applied to a matching relative import
inside `src/components/App.tsx`; `../lib/util` resolves to `src/lib/util`. -/
theorem c8_amended_witness :
    importMatches "X" "../lib/util" = true ∧
    rewriteStmt "src/components/App.tsx" (.importStmt "X" "../lib/util") =
      .constRequire "X" "src/lib/util" := by
  constructor
  · decide
  · have h := (c8_amended "src/components/App.tsx" "X" "../lib/util").1 (by decide)
    exact h.trans (by decide)

/-- C8 counterexample: the statement `import React from 'react'` has a bare,
non-relative specifier, yet the rewrite turns it into a
`requireModule('react')` call — refuting the claim that exactly the
default-import statements with relative `./`-specifiers are rewritten. -/
theorem c8_counterexample :
    rewriteStmt "App.tsx" (.importStmt "React" "react") =
      .constRequire "React" "react" ∧
    isRelativeSpec "react" = false := by
  exact ⟨by decide, by decide⟩

/-- C10: `requireModule` re-invokes the stored unit on every call, each time
with a fresh empty exports object and no cache: for every registered module,
the first call runs the unit from the ambient state and the second call runs
the unit again from the resulting state — the body executes twice, and the
returned export values are constructed independently by the two runs. -/
theorem c10_no_cache {σ : Type} (registry : String → Option (ModUnit σ))
    (f : String) (u : ModUnit σ) (s : σ) (h : registry f = some u) :
    requireModule registry f s =
      (.ok (pickExport (u emptyExports s).1), (u emptyExports s).2) ∧
    requireModule registry f (requireModule registry f s).2 =
      (.ok (pickExport (u emptyExports (u emptyExports s).2).1),
       (u emptyExports (u emptyExports s).2).2) := by
  constructor <;> simp [requireModule, h]

/-- C10 witness: a unit whose body counts its executions; requiring the same
module twice yields two different export values (1, then 2), so the exports
were not cached. -/
theorem c10_no_cache_witness :
    requireModule (fun x => if x = "m" then
        some ((fun _ n => (JSValue.jobj [("default", JSValue.jnum (n + 1))], n + 1)) :
          ModUnit Int)
      else none) "m" 0 = (.ok (JSValue.jnum 1), 1) ∧
    requireModule (fun x => if x = "m" then
        some ((fun _ n => (JSValue.jobj [("default", JSValue.jnum (n + 1))], n + 1)) :
          ModUnit Int)
      else none) "m" 1 = (.ok (JSValue.jnum 2), 2) ∧
    JSValue.jnum 1 ≠ JSValue.jnum 2 := by
  have h := c10_no_cache (σ := Int) (fun x => if x = "m" then
      some ((fun _ n => (JSValue.jobj [("default", JSValue.jnum (n + 1))], n + 1)) :
        ModUnit Int)
    else none) "m"
    (fun _ n => (JSValue.jobj [("default", JSValue.jnum (n + 1))], n + 1)) 0 rfl
  refine ⟨h.1.trans rfl, ?_, ?_⟩
  · exact rfl
  · intro hh
    injection hh with h'
    exact absurd h' (by decide)

/-- C9: the version snapshot `codeBlocks: [...accumulatedCodeBlocks]`
(PreviewPane.tsx line 174) is a shallow array copy: it contains the very same
node objects (heap addresses) as the accumulated tree, so an in-place child
append on a shared node — the mutation a non-copying merge performs — changes
what the earlier snapshot renders: with a single folder cell at address 0,
the snapshot of `[0]` is `[0]` itself, showing zero children before and one
child after the append, contradicting the claimed deep-copy isolation. -/
theorem c9_shallow_snapshot_aliases :
    spreadCopy [0] = [0] ∧
    viewChildCount (viewOf [HeapCell.mk (some "src") none []] 2 0) = 0 ∧
    viewChildCount (viewOf (appendChildAt
      [HeapCell.mk (some "src") none [],
       HeapCell.mk (some "App.tsx") (some "x") []] 0 1) 2 0) = 1 := by
  exact ⟨rfl, rfl, rfl⟩

/-- C5 counterexample: on the fence `"```\nhello\n```"` the opening line
carries no filename token, yet the extracted block's filename is `some "hello"`
(the regex's greedy `\s+` before the filename capture matches the newline, so
the first body line is captured as the filename), refuting the part of the
claim that says the filename is undefined when no filename token is present. -/
theorem c5_counterexample :
    parseCodeBlocks "```\nhello\n```" =
      [{ language := "text", filename := some "hello", content := "" }] ∧
    (some "hello" : Option String) ≠ none := by
  exact ⟨by decide, by decide⟩

/-- C5 amended: on the text consisting of the fence with opening line
`"```tsx App.tsx"` and body `export default function App(){}`,
`parseCodeBlocks` returns exactly one block with language `tsx`, filename
`App.tsx` and that content; a fence whose opening line carries no language
token gets language `"text"`; but the filename is undefined only when nothing
is captured (for example an empty body): when the opening line has no filename
token and the body is nonempty, the first body line is captured as the
filename. -/
theorem c5_amended :
    parseCodeBlocks "```tsx App.tsx\nexport default function App(){}\n```" =
      [{ language := "tsx", filename := some "App.tsx",
         content := "export default function App(){}" }] ∧
    parseCodeBlocks "```\n```" =
      [{ language := "text", filename := none, content := "" }] ∧
    parseCodeBlocks "```\nhello\n```" =
      [{ language := "text", filename := some "hello", content := "" }] := by
  exact ⟨by decide, by decide, by decide⟩

/-- C6: `parseCodeBlocks` is a total function (it is defined for every string
and so never throws); on any text with no occurrence of three consecutive
backticks — hence with zero fences — it returns the empty list, and on a
still-streaming text whose only fence is unterminated it also returns no
block. -/
theorem c6_no_fence_no_blocks :
    (∀ text : String, hasTicks text.data = false → parseCodeBlocks text = []) ∧
    parseCodeBlocks "streaming ```tsx App.tsx\nconst x = 1" = [] := by
  constructor
  · intro text h
    exact scanBlocks_nil_of_no_ticks text.data.length text.data h
  · decide

/-- C6 witness: the universal part of `c6_no_fence_no_blocks` applied to a
concrete fence-free text. -/
theorem c6_no_fence_no_blocks_witness :
    hasTicks "just prose, no fences".data = false ∧
    parseCodeBlocks "just prose, no fences" = [] :=
  ⟨by decide, c6_no_fence_no_blocks.1 "just prose, no fences" (by decide)⟩

end TC
